import Mathlib

set_option maxHeartbeats 1000000

/-!
Verification development for the paragraph-ingestion / word-frequency /
search service.  The definitions below are shallow embeddings of the
Python source under `backend/`:

* `tokenize`, `batchCounts`, `mergeBatch`, `update_word_frequencies`
  embed `IngestService._update_word_frequencies`
  (`backend/ingest_service/service.py`);
* `fetch_and_store_paragraph` embeds the ingestion flow of
  `IngestService.fetch_and_store_paragraph`;
* `search_paragraphs` embeds `SearchService.search_paragraphs`
  (`backend/search_service/service.py`);
* `update_top_words_cache_from_db`, `cache_definitions_for_top_words`
  embed `backend/commons/redis_client.py`;
* `get_top_words_definitions` embeds
  `DictionaryService.get_top_words_definitions`
  (`backend/dict_service/service.py`).
-/

namespace Portcast

/-- Constant `TOP_N_CACHED_WORDS = 10` from `backend/commons/configs.py`. -/
def TOP_N_CACHED_WORDS : Nat := 10

/-- Constant `REDIS_DEFINITION_TTL = 60 * 60` from `backend/commons/configs.py`. -/
def REDIS_DEFINITION_TTL : Nat := 60 * 60

/-- The `_STOP_WORDS` set of `backend/ingest_service/service.py`
(the Python set literal; duplicates in the literal are harmless). -/
def STOP_WORDS : List String :=
  ["the","and","for","with","from","that","this","those","these","have",
   "will","could","should","there","which","what","when","then","than",
   "were","been","being","has","had","you","your","are","was",
   "not","but","also","their","they","them","its","it","use","used"]

/-- A Python regex word character (`\w`): alphanumeric or underscore
(ASCII fragment; the ingested texts are ASCII). -/
def isWordChar (c : Char) : Bool := c.isAlphanum || c == '_'

/-- Splits a character list into its maximal runs of word characters
(the accumulator holds the current run, reversed). -/
def runsAux : List Char → List Char → List (List Char)
  | [], acc => if acc.isEmpty then [] else [acc.reverse]
  | c :: cs, acc =>
    if isWordChar c then runsAux cs (c :: acc)
    else if acc.isEmpty then runsAux cs []
    else acc.reverse :: runsAux cs []

/-- Maximal runs of word characters of a character list. -/
def wordRuns (cs : List Char) : List (List Char) := runsAux cs []

/-- Python `str.lower()` (ASCII fragment). -/
def pyLower (s : String) : String := String.mk (s.data.map Char.toLower)

/-- Embeds `re.findall` of the pattern \b[a-zA-Z]\x7b4,\x7d\b on `s`: the maximal word-character runs
that consist only of letters and have length at least 4 (the surrounding
`\b` requires the run not to touch further word characters, so a run
containing a digit or underscore yields no match at all). -/
def findallWordTokens (s : String) : List String :=
  (wordRuns s.data).filterMap fun r =>
    if 4 ≤ r.length && r.all Char.isAlpha then some (String.mk r) else none

/-- The tokenizer of `IngestService._update_word_frequencies`:
first `re.findall` of \b[a-zA-Z]\x7b4,\x7d\b on `new_content.lower()`,
followed by `[w for w in words if w not in _STOP_WORDS]`. -/
def tokenize (content : String) : List String :=
  (findallWordTokens (pyLower content)).filter (fun w => !(STOP_WORDS.contains w))

/-- One step of Python `collections.Counter`: increment the count of `w`,
inserting it with count 1 when absent (insertion order preserved). -/
def bump (acc : List (String × Nat)) (w : String) : List (String × Nat) :=
  if acc.any (fun p => p.1 == w) then
    acc.map (fun p => if p.1 == w then (p.1, p.2 + 1) else p)
  else acc ++ [(w, 1)]

/-- Python `Counter(words)` as an insertion-ordered association list. -/
def batchCounts (ws : List String) : List (String × Nat) := ws.foldl bump []

/-- Look up a word's row in the `word_frequencies` table
(`word` is a unique key). -/
def lookupFreq (store : List (String × Nat)) (w : String) : Option Nat :=
  (store.find? (fun p => p.1 == w)).map (·.2)

/-- The stored frequency of `w`, taking 0 when absent. -/
def lookupFreqD (store : List (String × Nat)) (w : String) : Nat :=
  (lookupFreq store w).getD 0

/-- One row of the PostgreSQL
`INSERT ... ON CONFLICT (word) DO UPDATE SET frequency = frequency + excluded.frequency`
statement: insert `(w, k)`, or add `k` to the existing row's frequency. -/
def upsertAdd (store : List (String × Nat)) (w : String) (k : Nat) :
    List (String × Nat) :=
  if store.any (fun p => p.1 == w) then
    store.map (fun p => if p.1 == w then (p.1, p.2 + k) else p)
  else store ++ [(w, k)]

/-- The batch upsert over `values_list` (one atomic statement in the
source; its effect is the row-wise upsert of each `(word, count)`). -/
def mergeBatch (store batch : List (String × Nat)) : List (String × Nat) :=
  batch.foldl (fun st wk => upsertAdd st wk.1 wk.2) store

/-- The durable-store effect of `IngestService._update_word_frequencies`:
tokenize, count, and merge; an empty token batch returns early. -/
def update_word_frequencies (store : List (String × Nat)) (content : String) :
    List (String × Nat) :=
  if (batchCounts (tokenize content)).isEmpty then store
  else mergeBatch store (batchCounts (tokenize content))

/-- Total occurrences recorded for key `x` in an association list. -/
def sumCounts (batch : List (String × Nat)) (x : String) : Nat :=
  ((batch.filter (fun p => p.1 == x)).map Prod.snd).sum

theorem lookupFreq_cons (a : String × Nat) (rest : List (String × Nat)) (x : String) :
    lookupFreq (a :: rest) x = if a.1 = x then some a.2 else lookupFreq rest x := by
  by_cases h : a.1 = x <;> simp [lookupFreq, List.find?_cons, h]

theorem lookupFreq_eq_none_iff (store : List (String × Nat)) (x : String) :
    lookupFreq store x = none ↔ ∀ p ∈ store, p.1 ≠ x := by
  simp [lookupFreq, List.find?_eq_none]

theorem any_key_eq_true_iff (store : List (String × Nat)) (w : String) :
    store.any (fun p => p.1 == w) = true ↔ ∃ p ∈ store, p.1 = w := by
  simp [List.any_eq_true]

theorem lookupFreq_map_add (store : List (String × Nat)) (w : String) (k : Nat)
    (x : String) :
    lookupFreq (store.map (fun p => if p.1 == w then (p.1, p.2 + k) else p)) x =
      if x = w then (lookupFreq store x).map (· + k) else lookupFreq store x := by
  induction store with
  | nil => by_cases h : x = w <;> simp [lookupFreq, h]
  | cons a rest ih =>
    have hfst : (if a.1 == w then (a.1, a.2 + k) else a).1 = a.1 := by
      by_cases h : a.1 = w <;> simp [h]
    rw [List.map_cons, lookupFreq_cons, hfst, lookupFreq_cons, ih]
    by_cases hax : a.1 = x
    · by_cases hxw : x = w
      · simp [hax, hxw]
      · have : ¬ (a.1 == w) = true := by simp [hax, hxw]
        simp [hax, hxw, this]
    · simp [hax]

theorem lookupFreq_upsertAdd (store : List (String × Nat)) (w : String) (k : Nat)
    (x : String) :
    lookupFreq (upsertAdd store w k) x =
      if x = w then some (lookupFreqD store w + k) else lookupFreq store x := by
  unfold upsertAdd
  by_cases hany : store.any (fun p => p.1 == w) = true
  · obtain ⟨p, hp, hpw⟩ := (any_key_eq_true_iff store w).mp hany
    have hmem : lookupFreq store w ≠ none := by
      rw [Ne, lookupFreq_eq_none_iff]
      push_neg
      exact ⟨p, hp, hpw⟩
    obtain ⟨n, hn⟩ := Option.ne_none_iff_exists'.mp hmem
    rw [if_pos hany, lookupFreq_map_add]
    by_cases hxw : x = w
    · simp [hxw, lookupFreqD, hn]
    · simp [hxw]
  · rw [if_neg hany]
    have hnone : lookupFreq store w = none := by
      rw [lookupFreq_eq_none_iff]
      intro p hp hpw
      exact hany ((any_key_eq_true_iff store w).mpr ⟨p, hp, hpw⟩)
    induction store with
    | nil =>
      by_cases hxw : x = w
      · simp [lookupFreq, lookupFreqD, hxw]
      · have hwx : ¬ w = x := fun h => hxw h.symm
        simp [lookupFreq, hxw, hwx]
    | cons a rest ih =>
      rw [List.cons_append, lookupFreq_cons, lookupFreq_cons]
      rw [lookupFreq_cons] at hnone
      by_cases hax : a.1 = x
      · have haw : ¬ a.1 = w := by
          intro h
          rw [if_pos h] at hnone
          exact Option.some_ne_none _ hnone
        have hxw : ¬ x = w := fun h => haw (hax.trans h)
        simp [hax, hxw]
      · have hanyr : ¬ rest.any (fun p => p.1 == w) = true := by
          intro h
          obtain ⟨p, hp, hpw⟩ := (any_key_eq_true_iff rest w).mp h
          exact hany ((any_key_eq_true_iff _ w).mpr ⟨p, List.mem_cons_of_mem a hp, hpw⟩)
        have hnoner : lookupFreq rest w = none := by
          by_cases haw : a.1 = w
          · rw [if_pos haw] at hnone
            exact absurd hnone (Option.some_ne_none _)
          · rwa [if_neg haw] at hnone
        have := ih hanyr hnoner
        by_cases hxw : x = w
        · rw [if_pos hxw] at this
          rw [if_neg hax, if_pos hxw, this]
          have hD : lookupFreqD (a :: rest) w = lookupFreqD rest w := by
            by_cases haw : a.1 = w
            · rw [if_pos haw] at hnone
              exact absurd hnone (Option.some_ne_none _)
            · simp [lookupFreqD, lookupFreq_cons, haw]
          rw [hD]
        · rw [if_neg hxw] at this ⊢
          simp [hax, this]

theorem lookupFreqD_upsertAdd (store : List (String × Nat)) (w : String) (k : Nat)
    (x : String) :
    lookupFreqD (upsertAdd store w k) x =
      if x = w then lookupFreqD store w + k else lookupFreqD store x := by
  rw [lookupFreqD, lookupFreq_upsertAdd]
  by_cases hxw : x = w <;> simp [hxw, lookupFreqD]

theorem lookupFreq_upsertAdd_eq_none_iff (store : List (String × Nat)) (w : String)
    (k : Nat) (x : String) :
    lookupFreq (upsertAdd store w k) x = none ↔
      lookupFreq store x = none ∧ x ≠ w := by
  rw [lookupFreq_upsertAdd]
  by_cases hxw : x = w <;> simp [hxw]

theorem sumCounts_cons (w : String) (k : Nat) (rest : List (String × Nat))
    (x : String) :
    sumCounts ((w, k) :: rest) x = (if x = w then k else 0) + sumCounts rest x := by
  by_cases h : w = x
  · simp [sumCounts, List.filter_cons, h]
  · have h' : ¬ x = w := fun hh => h hh.symm
    simp [sumCounts, List.filter_cons, h, h']

theorem lookupFreqD_mergeBatch (batch store : List (String × Nat)) (x : String) :
    lookupFreqD (mergeBatch store batch) x = lookupFreqD store x + sumCounts batch x := by
  induction batch generalizing store with
  | nil => simp [mergeBatch, sumCounts]
  | cons wk rest ih =>
    obtain ⟨w, k⟩ := wk
    have hstep : mergeBatch store ((w, k) :: rest) = mergeBatch (upsertAdd store w k) rest := rfl
    rw [hstep, ih, sumCounts_cons, lookupFreqD_upsertAdd]
    by_cases hxw : x = w
    · rw [if_pos hxw, if_pos hxw, hxw]
      omega
    · rw [if_neg hxw, if_neg hxw]
      omega

theorem lookupFreq_mergeBatch_eq_none_iff (batch store : List (String × Nat))
    (x : String) :
    lookupFreq (mergeBatch store batch) x = none ↔
      lookupFreq store x = none ∧ ∀ p ∈ batch, p.1 ≠ x := by
  induction batch generalizing store with
  | nil => simp [mergeBatch]
  | cons wk rest ih =>
    obtain ⟨w, k⟩ := wk
    have hstep : mergeBatch store ((w, k) :: rest) = mergeBatch (upsertAdd store w k) rest := rfl
    rw [hstep, ih, lookupFreq_upsertAdd_eq_none_iff]
    constructor
    · rintro ⟨⟨h1, h2⟩, h3⟩
      refine ⟨h1, ?_⟩
      intro p hp
      rcases List.mem_cons.mp hp with hpe | hpr
      · rw [hpe]
        exact fun h => h2 h.symm
      · exact h3 p hpr
    · rintro ⟨h1, h2⟩
      refine ⟨⟨h1, ?_⟩, ?_⟩
      · intro h
        exact h2 (w, k) (List.mem_cons_self _ _) h.symm
      · intro p hp
        exact h2 p (List.mem_cons_of_mem _ hp)

theorem bump_eq_upsertAdd (acc : List (String × Nat)) (w : String) :
    bump acc w = upsertAdd acc w 1 := rfl

theorem lookupFreqD_foldl_bump (ws : List String) (acc : List (String × Nat))
    (x : String) :
    lookupFreqD (ws.foldl bump acc) x = lookupFreqD acc x + ws.count x := by
  induction ws generalizing acc with
  | nil => simp
  | cons w rest ih =>
    rw [List.foldl_cons, ih, bump_eq_upsertAdd, lookupFreqD_upsertAdd, List.count_cons]
    by_cases hxw : x = w
    · simp [hxw]
      omega
    · have h1 : ¬ (x == w) = true := by simp [hxw]
      have h2 : ¬ w = x := fun h => hxw h.symm
      simp [hxw, h1, h2]

theorem lookupFreq_foldl_bump_eq_none_iff (ws : List String)
    (acc : List (String × Nat)) (x : String) :
    lookupFreq (ws.foldl bump acc) x = none ↔
      lookupFreq acc x = none ∧ x ∉ ws := by
  induction ws generalizing acc with
  | nil => simp
  | cons w rest ih =>
    rw [List.foldl_cons, ih, bump_eq_upsertAdd, lookupFreq_upsertAdd_eq_none_iff]
    constructor
    · rintro ⟨⟨h1, h2⟩, h3⟩
      exact ⟨h1, by simp [h2, h3]⟩
    · rintro ⟨h1, h2⟩
      simp only [List.mem_cons, not_or] at h2
      exact ⟨⟨h1, h2.1⟩, h2.2⟩

theorem lookupFreqD_batchCounts (ws : List String) (x : String) :
    lookupFreqD (batchCounts ws) x = ws.count x := by
  rw [batchCounts, lookupFreqD_foldl_bump]
  simp [lookupFreqD, lookupFreq]

theorem mem_keys_batchCounts (ws : List String) (x : String) :
    (∃ p ∈ batchCounts ws, p.1 = x) ↔ x ∈ ws := by
  have h := lookupFreq_foldl_bump_eq_none_iff ws [] x
  rw [← batchCounts] at h
  constructor
  · rintro ⟨p, hp, hpx⟩
    by_contra hxw
    have := h.mpr ⟨rfl, hxw⟩
    rw [lookupFreq_eq_none_iff] at this
    exact this p hp hpx
  · intro hx
    by_contra hno
    push_neg at hno
    have : lookupFreq (batchCounts ws) x = none := by
      rw [lookupFreq_eq_none_iff]
      exact hno
    exact (h.mp this).2 hx

theorem lookupFreq_mergeBatch_not_mem (batch store : List (String × Nat))
    (x : String) (h : ∀ p ∈ batch, p.1 ≠ x) :
    lookupFreq (mergeBatch store batch) x = lookupFreq store x := by
  induction batch generalizing store with
  | nil => rfl
  | cons wk rest ih =>
    obtain ⟨w, k⟩ := wk
    have hstep : mergeBatch store ((w, k) :: rest) = mergeBatch (upsertAdd store w k) rest := rfl
    rw [hstep, ih _ (fun p hp => h p (List.mem_cons_of_mem _ hp)), lookupFreq_upsertAdd]
    have hxw : ¬ x = w := fun hh =>
      h (w, k) (List.mem_cons_self _ _) hh.symm
    rw [if_neg hxw]

/-- Keys of an association list. -/
def keysOf (l : List (String × Nat)) : List String := l.map Prod.fst

theorem keysOf_bump (acc : List (String × Nat)) (w : String) :
    keysOf (bump acc w) = if acc.any (fun p => p.1 == w) then keysOf acc
      else keysOf acc ++ [w] := by
  by_cases h : acc.any (fun p => p.1 == w) = true
  · rw [if_pos h]
    simp only [bump, h, if_true, keysOf, List.map_map]
    apply List.map_congr_left
    intro p _
    by_cases hp : p.1 = w <;> simp [hp]
  · rw [if_neg h, bump, if_neg h]
    simp [keysOf]

theorem keysOf_foldl_bump_nodup (ws : List String) (acc : List (String × Nat))
    (hacc : (keysOf acc).Nodup) : (keysOf (ws.foldl bump acc)).Nodup := by
  induction ws generalizing acc with
  | nil => exact hacc
  | cons w rest ih =>
    rw [List.foldl_cons]
    apply ih
    rw [keysOf_bump]
    by_cases h : acc.any (fun p => p.1 == w) = true
    · rwa [if_pos h]
    · rw [if_neg h]
      rw [List.nodup_append]
      refine ⟨hacc, List.nodup_singleton w, ?_⟩
      intro a ha hb
      rcases List.mem_singleton.mp hb with rfl
      obtain ⟨p, hp, hpw⟩ := List.mem_map.mp ha
      exact h ((any_key_eq_true_iff acc a).mpr ⟨p, hp, hpw⟩)

theorem sumCounts_eq_zero_of_not_mem (l : List (String × Nat)) (x : String)
    (h : ∀ p ∈ l, p.1 ≠ x) : sumCounts l x = 0 := by
  induction l with
  | nil => rfl
  | cons a rest ih =>
    obtain ⟨w, k⟩ := a
    rw [sumCounts_cons]
    have hw : w ≠ x := h (w, k) (List.mem_cons_self _ _)
    have hx : ¬ x = w := fun hh => hw hh.symm
    rw [if_neg hx, ih (fun p hp => h p (List.mem_cons_of_mem _ hp))]

theorem sumCounts_eq_lookupFreqD (l : List (String × Nat))
    (hl : (keysOf l).Nodup) (x : String) : sumCounts l x = lookupFreqD l x := by
  induction l with
  | nil => rfl
  | cons a rest ih =>
    obtain ⟨w, k⟩ := a
    rw [sumCounts_cons, lookupFreqD, lookupFreq_cons]
    rw [keysOf, List.map_cons, List.nodup_cons] at hl
    by_cases hxw : x = w
    · rw [if_pos hxw, if_pos (show (w, k).1 = x from hxw.symm)]
      have : sumCounts rest x = 0 := by
        apply sumCounts_eq_zero_of_not_mem
        intro p hp hpx
        exact hl.1 (List.mem_map.mpr ⟨p, hp, by rw [hpx]; exact hxw⟩)
      simp [this]
    · rw [if_neg hxw, if_neg (show ¬ (w, k).1 = x from fun h => hxw h.symm)]
      simpa [lookupFreqD] using ih hl.2

theorem sumCounts_batchCounts (ws : List String) (x : String) :
    sumCounts (batchCounts ws) x = ws.count x := by
  rw [show batchCounts ws = ws.foldl bump [] from rfl,
    sumCounts_eq_lookupFreqD _ (keysOf_foldl_bump_nodup ws [] (by simp [keysOf])),
    lookupFreqD_foldl_bump]
  simp [lookupFreqD, lookupFreq]

theorem lookupFreqD_update_word_frequencies (store : List (String × Nat))
    (content : String) (x : String) :
    lookupFreqD (update_word_frequencies store content) x =
      lookupFreqD store x + (tokenize content).count x := by
  unfold update_word_frequencies
  by_cases h : (batchCounts (tokenize content)).isEmpty = true
  · rw [if_pos h]
    have hbc : batchCounts (tokenize content) = [] := List.isEmpty_iff.mp h
    have : (tokenize content).count x = 0 := by
      rw [← lookupFreqD_batchCounts, hbc]
      rfl
    omega
  · rw [if_neg h, lookupFreqD_mergeBatch, sumCounts_batchCounts]

theorem lookupFreq_update_eq_none_iff (store : List (String × Nat))
    (content : String) (x : String) :
    lookupFreq (update_word_frequencies store content) x = none ↔
      lookupFreq store x = none ∧ x ∉ tokenize content := by
  unfold update_word_frequencies
  by_cases h : (batchCounts (tokenize content)).isEmpty = true
  · rw [if_pos h]
    have hbc : batchCounts (tokenize content) = [] := List.isEmpty_iff.mp h
    have hnx : x ∉ tokenize content := by
      rw [← mem_keys_batchCounts, hbc]
      simp
    simp [hnx]
  · rw [if_neg h, lookupFreq_mergeBatch_eq_none_iff]
    constructor
    · rintro ⟨h1, h2⟩
      refine ⟨h1, ?_⟩
      rw [← mem_keys_batchCounts]
      rintro ⟨p, hp, hpx⟩
      exact h2 p hp hpx
    · rintro ⟨h1, h2⟩
      refine ⟨h1, ?_⟩
      intro p hp hpx
      exact h2 ((mem_keys_batchCounts _ _).mp ⟨p, hp, hpx⟩)

theorem lookupFreq_update_of_some (store : List (String × Nat)) (content : String)
    (x : String) (n : Nat) (h : lookupFreq store x = some n) :
    lookupFreq (update_word_frequencies store content) x =
      some (n + (tokenize content).count x) := by
  have hne : lookupFreq (update_word_frequencies store content) x ≠ none := by
    rw [Ne, lookupFreq_update_eq_none_iff]
    rintro ⟨h1, _⟩
    rw [h] at h1
    exact Option.some_ne_none _ h1
  obtain ⟨m, hm⟩ := Option.ne_none_iff_exists'.mp hne
  have hD := lookupFreqD_update_word_frequencies store content x
  rw [lookupFreqD, lookupFreqD, hm, h] at hD
  simp only [Option.getD_some] at hD
  rw [hm, hD]

theorem lookupFreq_update_of_none (store : List (String × Nat)) (content : String)
    (x : String) (h : lookupFreq store x = none) (hx : x ∈ tokenize content) :
    lookupFreq (update_word_frequencies store content) x =
      some ((tokenize content).count x) := by
  have hne : lookupFreq (update_word_frequencies store content) x ≠ none := by
    rw [Ne, lookupFreq_update_eq_none_iff]
    rintro ⟨_, h2⟩
    exact h2 hx
  obtain ⟨m, hm⟩ := Option.ne_none_iff_exists'.mp hne
  have hD := lookupFreqD_update_word_frequencies store content x
  rw [lookupFreqD, lookupFreqD, hm, h] at hD
  simp only [Option.getD_some, Option.getD_none, Nat.zero_add] at hD
  rw [hm, hD]

theorem lookupFreq_update_of_not_token (store : List (String × Nat))
    (content : String) (x : String) (hx : x ∉ tokenize content) :
    lookupFreq (update_word_frequencies store content) x = lookupFreq store x := by
  unfold update_word_frequencies
  by_cases h : (batchCounts (tokenize content)).isEmpty = true
  · rw [if_pos h]
  · rw [if_neg h]
    apply lookupFreq_mergeBatch_not_mem
    intro p hp hpx
    exact hx ((mem_keys_batchCounts _ _).mp ⟨p, hp, hpx⟩)

/-- C5: for every word `w`, every store, and every ingested text whose token
batch contains `k` occurrences of `w`, the durable merge performed by
`IngestService._update_word_frequencies` increases the stored count of `w`
by exactly `k`: a fresh row with count `k` is inserted when `w` was absent
(and `k > 0`), an existing count `n` becomes `n + k`, and the count never
decreases. -/
theorem merge_adds_exactly_batch_occurrences (store : List (String × Nat))
    (content : String) (w : String) :
    lookupFreqD (update_word_frequencies store content) w =
        lookupFreqD store w + (tokenize content).count w
    ∧ (lookupFreq store w = none → w ∈ tokenize content →
        lookupFreq (update_word_frequencies store content) w =
          some ((tokenize content).count w))
    ∧ (∀ n, lookupFreq store w = some n →
        lookupFreq (update_word_frequencies store content) w =
          some (n + (tokenize content).count w))
    ∧ lookupFreqD store w ≤ lookupFreqD (update_word_frequencies store content) w := by
  refine ⟨lookupFreqD_update_word_frequencies store content w, ?_, ?_, ?_⟩
  · intro h hx
    exact lookupFreq_update_of_none store content w h hx
  · intro n hn
    exact lookupFreq_update_of_some store content w n hn
  · have := lookupFreqD_update_word_frequencies store content w
    omega

/-- Witness for C5: ingesting "Beta beta" (two occurrences of the token
"beta") into a store where "beta" has count 2 yields count 4. -/
theorem merge_adds_exactly_batch_occurrences_witness :
    lookupFreq (update_word_frequencies [("beta", 2)] "Beta beta") "beta" =
      some 4 := by
  have h := merge_adds_exactly_batch_occurrences [("beta", 2)] "Beta beta" "beta"
  exact (h.2.2.1 2 rfl).trans rfl

/-- C3 counterexample: ingesting "Python programming is great. Python rocks."
into the store `[("python", 10)]` inserts the word "great" with count 1 —
"great" is five alphabetic characters and is not in `_STOP_WORDS`, so the
claim that "great" is excluded from the store (never inserted) is false. -/
theorem ingest_scenario_inserts_great :
    lookupFreq [("python", 10)] "great" = none ∧
    lookupFreq (update_word_frequencies [("python", 10)]
      "Python programming is great. Python rocks.") "great" = some 1 := by
  exact ⟨rfl, rfl⟩

/-- C3 (amended): ingesting "Python programming is great. Python rocks."
into a store where "python" has count 10 yields count 12 for "python",
increases "programming", "rocks" and also "great" by 1 (all three are
tokens of the text), and leaves "is" untouched (length < 4, so it is never
inserted or incremented). -/
theorem ingest_scenario_counts (store : List (String × Nat))
    (hpy : lookupFreq store "python" = some 10) :
    lookupFreq (update_word_frequencies store
        "Python programming is great. Python rocks.") "python" = some 12
    ∧ lookupFreqD (update_word_frequencies store
        "Python programming is great. Python rocks.") "programming" =
        lookupFreqD store "programming" + 1
    ∧ lookupFreqD (update_word_frequencies store
        "Python programming is great. Python rocks.") "rocks" =
        lookupFreqD store "rocks" + 1
    ∧ lookupFreqD (update_word_frequencies store
        "Python programming is great. Python rocks.") "great" =
        lookupFreqD store "great" + 1
    ∧ lookupFreq (update_word_frequencies store
        "Python programming is great. Python rocks.") "is" =
        lookupFreq store "is" := by
  refine ⟨?_, ?_, ?_, ?_, ?_⟩
  · exact (lookupFreq_update_of_some store _ "python" 10 hpy).trans rfl
  · exact (lookupFreqD_update_word_frequencies store _ "programming").trans rfl
  · exact (lookupFreqD_update_word_frequencies store _ "rocks").trans rfl
  · exact (lookupFreqD_update_word_frequencies store _ "great").trans rfl
  · exact lookupFreq_update_of_not_token store _ "is" (by decide)

/-- Witness for the amended C3 at the concrete store `[("python", 10)]`. -/
theorem ingest_scenario_counts_witness :
    lookupFreq (update_word_frequencies [("python", 10)]
        "Python programming is great. Python rocks.") "python" = some 12
    ∧ lookupFreqD (update_word_frequencies [("python", 10)]
        "Python programming is great. Python rocks.") "programming" = 1
    ∧ lookupFreqD (update_word_frequencies [("python", 10)]
        "Python programming is great. Python rocks.") "rocks" = 1
    ∧ lookupFreqD (update_word_frequencies [("python", 10)]
        "Python programming is great. Python rocks.") "great" = 1
    ∧ lookupFreq (update_word_frequencies [("python", 10)]
        "Python programming is great. Python rocks.") "is" = none := by
  have h := ingest_scenario_counts [("python", 10)] rfl
  exact ⟨h.1, h.2.1.trans rfl, h.2.2.1.trans rfl, h.2.2.2.1.trans rfl,
    h.2.2.2.2.trans rfl⟩

/-- The tokenizer exactly as the claim words it: lowercase the input,
extract the maximal runs of alphabetic characters of length at least 4,
and drop stop-words (written with the library splitter, independently of
the executable `runsAux`). -/
def specTokenizeClaim (content : String) : List String :=
  (((pyLower content).data.splitOnP (fun c => !c.isAlpha)).filterMap
    (fun r => if 4 ≤ r.length then some (String.mk r) else none)).filter
    (fun w => !(STOP_WORDS.contains w))

/-- The amended tokenizer description: lowercase the input, extract the
maximal runs of word characters (letters, digits, underscore), keep those
consisting solely of alphabetic characters with length at least 4, and
drop stop-words. -/
def specTokenizeAmended (content : String) : List String :=
  (((pyLower content).data.splitOnP (fun c => !(isWordChar c))).filterMap
    (fun r => if 4 ≤ r.length && r.all Char.isAlpha then some (String.mk r)
      else none)).filter (fun w => !(STOP_WORDS.contains w))

theorem modifyHead_ident (l : List (List Char)) :
    l.modifyHead (fun r => r) = l := by
  cases l <;> simp

theorem runsAux_eq_splitOnP (cs acc : List Char) :
    runsAux cs acc =
      ((cs.splitOnP (fun c => !(isWordChar c))).modifyHead
        (fun r => acc.reverse ++ r)).filter (fun r => !r.isEmpty) := by
  induction cs generalizing acc with
  | nil =>
    cases acc with
    | nil => simp [runsAux]
    | cons a as => simp [runsAux]
  | cons c cs ih =>
    by_cases hc : isWordChar c = true
    · have hp : (!(isWordChar c)) = false := by rw [hc]; rfl
      rw [runsAux, if_pos hc, List.splitOnP_cons, hp]
      rw [if_neg (by simp), List.modifyHead_modifyHead, ih (c :: acc)]
      congr 1
      congr 1
      funext r
      simp
    · have hp : (!(isWordChar c)) = true := by
        rw [Bool.not_eq_true] at hc
        rw [hc]
        rfl
      rw [runsAux, if_neg hc, List.splitOnP_cons, if_pos hp]
      cases acc with
      | nil => simp [ih [], modifyHead_ident]
      | cons a as => simp [ih [], modifyHead_ident]

theorem wordRuns_eq_splitOnP (cs : List Char) :
    wordRuns cs =
      (cs.splitOnP (fun c => !(isWordChar c))).filter (fun r => !r.isEmpty) := by
  rw [wordRuns, runsAux_eq_splitOnP]
  simp [modifyHead_ident]

theorem filterMap_filter_nonempty (l : List (List Char))
    (f : List Char → Option String) (hf : f [] = none) :
    (l.filter (fun r => !r.isEmpty)).filterMap f = l.filterMap f := by
  induction l with
  | nil => rfl
  | cons r rest ih =>
    cases r with
    | nil => simpa [List.filter_cons, List.filterMap_cons, hf] using ih
    | cons c cs => simp [List.filter_cons, List.filterMap_cons, ih]

/-- C6 counterexample: on the input "abcd1" the code's tokenizer extracts
nothing — the regex `\b[a-zA-Z]\x7b4,\x7d\b` needs a word boundary after the
letters and the digit `1` is a word character — while the claim's "maximal
runs of alphabetic characters of length at least 4" extracts "abcd". -/
theorem tokenize_claim_counterexample :
    tokenize "abcd1" = [] ∧ specTokenizeClaim "abcd1" = ["abcd"] :=
  ⟨rfl, rfl⟩

/-- C6 (amended): for every raw input, the tokenizer lowercases the input,
splits it into maximal runs of word characters (letters, digits,
underscore), keeps exactly the runs that consist solely of alphabetic
characters and have length at least 4, and drops stop-words; it is a pure
function and empty input produces empty output. -/
theorem tokenize_eq_spec_amended (s : String) :
    tokenize s = specTokenizeAmended s ∧ tokenize "" = [] := by
  constructor
  · rw [tokenize, specTokenizeAmended, findallWordTokens, wordRuns_eq_splitOnP,
      filterMap_filter_nonempty]
    rfl
  · rfl

/-- A row of the `paragraphs` table (`backend/commons/models.py`). -/
structure Paragraph where
  id : Nat
  content : String
  created_at : Nat
deriving DecidableEq

/-- The durable PostgreSQL state touched by `IngestService`. -/
structure DbState where
  paragraphs : List Paragraph
  wordFreqs : List (String × Nat)
deriving DecidableEq

/-- Embeds `IngestService.fetch_and_store_paragraph` as explicit state passing.
`fetched` is the text source's response (`none` = HTTP failure raised by
`raise_for_status`), `newId`/`created` the store-assigned id and timestamp,
`esOk` whether `ElasticsearchClient.index_document` succeeds, `mergeOk`
whether the frequency-merge transaction commits.  The paragraph insert is
committed (`db.add`/`commit`) before indexing and before the frequency
merge, so later failures leave the committed paragraph in place; a failed
merge leaves `wordFreqs` untouched (the batch upsert is one transaction). -/
def fetch_and_store_paragraph (st : DbState) (fetched : Option String)
    (newId created : Nat) (esOk mergeOk : Bool) :
    Except String Paragraph × DbState :=
  match fetched with
  | none => (Except.error "text source failed", st)
  | some content =>
    let para : Paragraph := ⟨newId, content, created⟩
    let st1 : DbState := { st with paragraphs := st.paragraphs ++ [para] }
    if esOk = false then (Except.error "elasticsearch index failed", st1)
    else if mergeOk = false then (Except.error "word frequency merge failed", st1)
    else (Except.ok para,
      { st1 with wordFreqs := update_word_frequencies st1.wordFreqs content })

/-- C4 counterexample: when the frequency merge fails, the request fails
but the already-committed paragraph persists — partial ingestion state
(a stored paragraph without its frequency updates) is visible, so the
all-or-nothing claim for the whole ingestion event is false. -/
theorem ingest_merge_failure_leaves_paragraph :
    (fetch_and_store_paragraph ⟨[], []⟩ (some "some testing words") 1 0
      true false).1.isOk = false
    ∧ (fetch_and_store_paragraph ⟨[], []⟩ (some "some testing words") 1 0
        true false).2 ≠ (⟨[], []⟩ : DbState)
    ∧ (fetch_and_store_paragraph ⟨[], []⟩ (some "some testing words") 1 0
        true false).2.paragraphs = [⟨1, "some testing words", 0⟩] := by
  exact ⟨rfl, by decide, rfl⟩

/-- C4 (amended): if the durable merge of word frequencies fails during an
ingestion event, the ingestion request fails and no partial *word-count*
updates are visible (the batch upsert is a single transaction, so
`wordFreqs` is exactly the pre-request state); however the paragraph row,
committed in its own earlier transaction, persists. -/
theorem ingest_merge_failure_behavior (st : DbState) (content : String)
    (newId created : Nat) (esOk : Bool) :
    (fetch_and_store_paragraph st (some content) newId created esOk false).1.isOk
        = false
    ∧ (fetch_and_store_paragraph st (some content) newId created esOk
        false).2.wordFreqs = st.wordFreqs
    ∧ (fetch_and_store_paragraph st (some content) newId created esOk
        false).2.paragraphs = st.paragraphs ++ [⟨newId, content, created⟩] := by
  cases esOk <;> exact ⟨rfl, rfl, rfl⟩

/-! Sorting by a numeric key, descending: the embedding of the SQL
`ORDER BY ... DESC` queries (the search re-ranking CASE expression and the
top-N frequency query). -/

/-- Insert `x` before the first element with a strictly smaller key. -/
def insertDescBy {α : Type} (key : α → Nat) (x : α) : List α → List α
  | [] => [x]
  | y :: ys => if key y < key x then x :: y :: ys else y :: insertDescBy key x ys

/-- Insertion sort, descending by `key`. -/
def sortDescBy {α : Type} (key : α → Nat) : List α → List α
  | [] => []
  | x :: xs => insertDescBy key x (sortDescBy key xs)

theorem insertDescBy_perm {α : Type} (key : α → Nat) (x : α) (l : List α) :
    List.Perm (insertDescBy key x l) (x :: l) := by
  induction l with
  | nil => rfl
  | cons y ys ih =>
    rw [insertDescBy]
    by_cases h : key y < key x
    · rw [if_pos h]
    · rw [if_neg h]
      exact (ih.cons y).trans (List.Perm.swap x y ys)

theorem sortDescBy_perm {α : Type} (key : α → Nat) (l : List α) :
    List.Perm (sortDescBy key l) l := by
  induction l with
  | nil => rfl
  | cons x xs ih =>
    exact (insertDescBy_perm key x (sortDescBy key xs)).trans (ih.cons x)

theorem insertDescBy_pairwise {α : Type} (key : α → Nat) (x : α) (l : List α)
    (h : l.Pairwise (fun a b => key b ≤ key a)) :
    (insertDescBy key x l).Pairwise (fun a b => key b ≤ key a) := by
  induction l with
  | nil => simp [insertDescBy]
  | cons y ys ih =>
    rw [insertDescBy]
    rw [List.pairwise_cons] at h
    by_cases hk : key y < key x
    · rw [if_pos hk]
      refine List.Pairwise.cons ?_ (List.Pairwise.cons h.1 h.2)
      intro b hb
      rcases List.mem_cons.mp hb with rfl | hb
      · exact Nat.le_of_lt hk
      · exact Nat.le_trans (h.1 b hb) (Nat.le_of_lt hk)
    · rw [if_neg hk]
      refine List.Pairwise.cons ?_ (ih h.2)
      intro b hb
      have hb' := (insertDescBy_perm key x ys).mem_iff.mp hb
      rcases List.mem_cons.mp hb' with rfl | hb''
      · exact Nat.le_of_not_lt hk
      · exact h.1 b hb''

theorem sortDescBy_pairwise {α : Type} (key : α → Nat) (l : List α) :
    (sortDescBy key l).Pairwise (fun a b => key b ≤ key a) := by
  induction l with
  | nil => simp [sortDescBy]
  | cons x xs ih => exact insertDescBy_pairwise key x (sortDescBy key xs) ih

theorem pairwise_lt_of_pairwise_le {α : Type} (key : α → Nat) (l : List α)
    (h1 : l.Pairwise (fun a b => key b ≤ key a))
    (h2 : (l.map key).Nodup) :
    l.Pairwise (fun a b => key b < key a) := by
  have h2' : l.Pairwise (fun a b => key a ≠ key b) := List.pairwise_map.mp h2
  exact (h1.and h2').imp
    (fun hab => Nat.lt_of_le_of_ne hab.1 (fun he => hab.2 he.symm))

/-- Two lists that are permutations of each other and both strictly
descending in `key` are equal. -/
theorem eq_of_perm_of_sortedDesc {α : Type} (key : α → Nat) (l₁ l₂ : List α)
    (hp : List.Perm l₁ l₂)
    (h₁ : l₁.Pairwise (fun a b => key b < key a))
    (h₂ : l₂.Pairwise (fun a b => key b < key a)) : l₁ = l₂ := by
  haveI : IsAntisymm α (fun a b => key b < key a) :=
    ⟨fun a b hab hba => absurd (Nat.lt_trans hab hba) (Nat.lt_irrefl _)⟩
  exact List.eq_of_perm_of_sorted hp h₁ h₂

/-- Index of the first occurrence of `x` (length of the list when absent). -/
def idxOfN : List Nat → Nat → Nat
  | [], _ => 0
  | i :: is, x => if i = x then 0 else idxOfN is x + 1

/-- The CASE weight built by `SearchService.search_paragraphs`:
`whens = \x7bpid: len(paragraph_ids) - idx for idx, pid in enumerate(paragraph_ids)\x7d`
with `else_=0` for identifiers outside the hit list. -/
def rankWeight (ids : List Nat) (pid : Nat) : Nat :=
  if pid ∈ ids then ids.length - idxOfN ids pid else 0

/-- Embeds `SearchService.search_paragraphs` after the oracle call: `ids` is the
ranked hit-id list from Elasticsearch; `fetched` holds the rows of
`SELECT ... WHERE id IN ids` in the store's (arbitrary) fetch order, and
the query's `ORDER BY case(whens, value=id, else_=0).desc()` re-sorts them
by descending rank weight.  An empty hit list returns `[]` with no store
query. -/
def search_paragraphs (ids : List Nat) (fetched : List Paragraph) :
    List Paragraph :=
  if ids.isEmpty then []
  else sortDescBy (fun p => rankWeight ids p.id) fetched

/-- Python tuple unpacking `a, b = l` of a list value: succeeds only when
the list has exactly two elements; any other length raises `ValueError`. -/
def unpack2 {α : Type} (l : List α) : Option (α × α) :=
  match l with
  | [a, b] => some (a, b)
  | _ => none

/-- C1: the `/search` route does
`paragraphs, total = await service.search_paragraphs(req.words, req.operator)`,
but the service returns a plain list of paragraphs, not a (list, count)
pair.  At a request whose oracle returns the single hit id 1 (present in
storage), the service evaluates to a one-element list and the route's
tuple unpacking fails (`ValueError`, surfaced as HTTP 500), so no
`\x7bparagraphs, total\x7d` response is produced. -/
theorem search_route_unpack_fails_on_one_hit :
    search_paragraphs [1] [⟨1, "python", 0⟩] = [⟨1, "python", 0⟩]
    ∧ unpack2 (search_paragraphs [1] [⟨1, "python", 0⟩]) = none := by
  exact ⟨rfl, rfl⟩

theorem idxOfN_getElem (ids : List Nat) (h : ids.Nodup) (i : Nat)
    (hi : i < ids.length) : idxOfN ids ids[i] = i := by
  induction ids generalizing i with
  | nil => simp at hi
  | cons a rest ih =>
    rw [List.nodup_cons] at h
    cases i with
    | zero => simp [idxOfN]
    | succ j =>
      have hj : j < rest.length := by simpa using hi
      have hmem : rest[j] ∈ rest := List.getElem_mem hj
      have hne : ¬ a = rest[j] := fun he => h.1 (he ▸ hmem)
      rw [List.getElem_cons_succ, idxOfN, if_neg hne, ih h.2 j hj]

theorem idxOfN_lt_length (ids : List Nat) (x : Nat) (h : x ∈ ids) :
    idxOfN ids x < ids.length := by
  induction ids with
  | nil => simp at h
  | cons a rest ih =>
    rw [idxOfN]
    by_cases ha : a = x
    · simp [ha]
    · have hx : x ∈ rest := by
        rcases List.mem_cons.mp h with he | hm
        · exact absurd he.symm ha
        · exact hm
      simpa [ha, List.length_cons] using Nat.succ_lt_succ (ih hx)

theorem idxOfN_inj (ids : List Nat) (x y : Nat) (hx : x ∈ ids) (hy : y ∈ ids)
    (h : idxOfN ids x = idxOfN ids y) : x = y := by
  induction ids with
  | nil => simp at hx
  | cons a rest ih =>
    rw [idxOfN, idxOfN] at h
    by_cases hax : a = x
    · by_cases hay : a = y
      · exact hax.symm.trans hay
      · rw [if_pos hax, if_neg hay] at h
        exact absurd h.symm (Nat.succ_ne_zero _)
    · by_cases hay : a = y
      · rw [if_neg hax, if_pos hay] at h
        exact absurd h (Nat.succ_ne_zero _)
      · rw [if_neg hax, if_neg hay] at h
        have hx' : x ∈ rest := by
          rcases List.mem_cons.mp hx with he | hm
          · exact absurd he.symm hax
          · exact hm
        have hy' : y ∈ rest := by
          rcases List.mem_cons.mp hy with he | hm
          · exact absurd he.symm hay
          · exact hm
        exact ih hx' hy' (Nat.succ_injective h)

theorem rankWeight_inj (ids : List Nat) (x y : Nat) (hx : x ∈ ids) (hy : y ∈ ids)
    (h : rankWeight ids x = rankWeight ids y) : x = y := by
  rw [rankWeight, rankWeight, if_pos hx, if_pos hy] at h
  have hxl := idxOfN_lt_length ids x hx
  have hyl := idxOfN_lt_length ids y hy
  exact idxOfN_inj ids x y hx hy (by omega)

theorem pairwise_rankWeight (ids : List Nat) (h : ids.Nodup) :
    ids.Pairwise (fun i j => rankWeight ids j < rankWeight ids i) := by
  rw [List.pairwise_iff_getElem]
  intro i j hi hj hij
  have hmi : ids[i] ∈ ids := List.getElem_mem hi
  have hmj : ids[j] ∈ ids := List.getElem_mem hj
  rw [rankWeight, rankWeight, if_pos hmi, if_pos hmj,
    idxOfN_getElem ids h i hi, idxOfN_getElem ids h j hj]
  omega

theorem target_map_id (ids : List Nat) (store : List Paragraph) :
    (ids.filterMap (fun i => store.find? (fun p => p.id == i))).map Paragraph.id
      = ids.filter (fun i => decide (i ∈ store.map Paragraph.id)) := by
  induction ids with
  | nil => rfl
  | cons i rest ih =>
    rw [List.filterMap_cons, List.filter_cons]
    cases hf : store.find? (fun p => p.id == i) with
    | none =>
      have hni : ¬ i ∈ store.map Paragraph.id := by
        rw [List.find?_eq_none] at hf
        intro hm
        obtain ⟨p, hp, hpi⟩ := List.mem_map.mp hm
        have hnp := hf p hp
        simp only [beq_iff_eq] at hnp
        exact hnp hpi
      rw [ih]
      simp [hni]
    | some p =>
      have hpi : p.id = i := by simpa using List.find?_some hf
      have hmi : i ∈ store.map Paragraph.id :=
        List.mem_map.mpr ⟨p, List.mem_of_find?_eq_some hf, hpi⟩
      rw [List.map_cons, ih]
      simp [hmi, hpi]

theorem mem_target_iff (ids : List Nat) (store : List Paragraph)
    (hstore : (store.map Paragraph.id).Nodup) (p : Paragraph) :
    p ∈ ids.filterMap (fun i => store.find? (fun q => q.id == i)) ↔
      p ∈ store ∧ p.id ∈ ids := by
  rw [List.mem_filterMap]
  constructor
  · rintro ⟨i, hi, hf⟩
    have hpi : p.id = i := by simpa using List.find?_some hf
    exact ⟨List.mem_of_find?_eq_some hf, hpi ▸ hi⟩
  · rintro ⟨hp, hpid⟩
    refine ⟨p.id, hpid, ?_⟩
    have hsome : (store.find? (fun q => q.id == p.id)).isSome := by
      rw [List.find?_isSome]
      exact ⟨p, hp, by simp⟩
    obtain ⟨q, hq⟩ := Option.isSome_iff_exists.mp hsome
    have hqid : q.id = p.id := by simpa using List.find?_some hq
    have hqp : q = p :=
      List.inj_on_of_nodup_map hstore (List.mem_of_find?_eq_some hq) hp hqid
    rw [hq, hqp]

/-- C2: for every ordered hit-id list returned by the search oracle and
every state of the paragraph store, the re-ranked result of
`SearchService.search_paragraphs` lists exactly the oracle's ids restricted
to those present in storage, in oracle order, for any storage fetch order
of the matching rows; ids absent from storage are silently dropped. -/
theorem search_rank_preservation (ids : List Nat) (store fetched : List Paragraph)
    (hids : ids.Nodup) (hstore : (store.map Paragraph.id).Nodup)
    (hfetch : List.Perm fetched (store.filter (fun p => decide (p.id ∈ ids)))) :
    (search_paragraphs ids fetched).map Paragraph.id =
      ids.filter (fun i => decide (i ∈ store.map Paragraph.id)) := by
  by_cases hemp : ids.isEmpty
  · have h0 : ids = [] := List.isEmpty_iff.mp hemp
    subst h0
    simp [search_paragraphs]
  · rw [search_paragraphs, if_neg hemp]
    set w : Paragraph → Nat := fun p => rankWeight ids p.id with hw
    set target : List Paragraph :=
      ids.filterMap (fun i => store.find? (fun q => q.id == i)) with htarget
    set flt : List Paragraph := store.filter (fun p => decide (p.id ∈ ids)) with hflt
    have hstored : store.Nodup := List.Nodup.of_map _ hstore
    have hfltnd : flt.Nodup := List.Nodup.filter _ hstored
    have htargetnd : target.Nodup := by
      apply List.Nodup.of_map Paragraph.id
      rw [htarget, target_map_id]
      exact List.Nodup.filter _ hids
    have hmemflt : ∀ p, p ∈ flt ↔ p ∈ store ∧ p.id ∈ ids := by
      intro p
      rw [hflt, List.mem_filter]
      simp
    have htf : List.Perm target flt := by
      rw [List.perm_ext_iff_of_nodup htargetnd hfltnd]
      intro p
      rw [hmemflt, htarget, mem_target_iff ids store hstore]
    have hsortperm : List.Perm (sortDescBy w fetched) target :=
      ((sortDescBy_perm w fetched).trans hfetch).trans htf.symm
    -- the filtered rows carry pairwise-distinct rank weights
    have hwnodup : ((sortDescBy w fetched).map w).Nodup := by
      have h1 : flt.Pairwise (fun p q => p.id ≠ q.id) := by
        have := List.pairwise_map.mp hstore
        exact this.sublist (List.filter_sublist store)
      have h2 : flt.Pairwise (fun p q => w p ≠ w q) := by
        refine h1.imp_of_mem ?_
        intro p q hp hq hne he
        exact hne (rankWeight_inj ids p.id q.id ((hmemflt p).mp hp).2
          ((hmemflt q).mp hq).2 he)
      have h3 : (flt.map w).Nodup := List.pairwise_map.mpr h2
      exact (List.Perm.nodup_iff (((sortDescBy_perm w fetched).trans hfetch).map w)).mpr h3
    have hsorted : (sortDescBy w fetched).Pairwise (fun a b => w b < w a) :=
      pairwise_lt_of_pairwise_le w _ (sortDescBy_pairwise w fetched) hwnodup
    have htargetsorted : target.Pairwise (fun a b => w b < w a) := by
      rw [htarget]
      rw [List.pairwise_filterMap]
      refine (pairwise_rankWeight ids hids).imp_of_mem ?_
      intro i j _ _ hij p hp q hq
      have hpi : p.id = i := by simpa using List.find?_some hp
      have hqj : q.id = j := by simpa using List.find?_some hq
      rw [hw]
      simp only
      rw [hpi, hqj]
      exact hij
    have heq : sortDescBy w fetched = target :=
      eq_of_perm_of_sortedDesc w _ _ hsortperm hsorted htargetsorted
    rw [heq, htarget, target_map_id]

/-- Witness for C2 at the spec's example: oracle order `[3, 1, 2]`, storage
holding paragraphs 1, 2 and 4, rows fetched in the order (2, 1): the
merger returns ids `[1, 2]` — the oracle order restricted to stored ids,
with the unknown id 3 silently dropped. -/
theorem search_rank_preservation_witness :
    (search_paragraphs [3, 1, 2]
        [⟨2, "b", 0⟩, ⟨1, "a", 0⟩]).map Paragraph.id = [1, 2] := by
  have h := search_rank_preservation [3, 1, 2]
    [⟨1, "a", 0⟩, ⟨2, "b", 0⟩, ⟨4, "d", 0⟩]
    [⟨2, "b", 0⟩, ⟨1, "a", 0⟩]
    (by decide) (by decide) (by decide)
  exact h.trans (by decide)

/-! Top-N cache protocol (`backend/commons/redis_client.py` together with
the cache path of `IngestService._update_word_frequencies`). -/

/-- Durable frequency table plus the Redis `top_words_freq` key
(`none` = key absent / deleted). -/
structure AppState where
  freqs : List (String × Nat)
  topCache : Option (List (String × Nat))
deriving DecidableEq

/-- The DB query of `update_top_words_cache_from_db`:
`SELECT word, frequency ORDER BY frequency DESC LIMIT n`. -/
def dbTopN (freqs : List (String × Nat)) (n : Nat) : List (String × Nat) :=
  (sortDescBy Prod.snd freqs).take n

/-- Embeds `invalidate_top_words_cache`: DELETE the top-words key. -/
def invalidate_top_words_cache (st : AppState) : AppState :=
  { st with topCache := none }

/-- Embeds `update_top_words_cache_from_db`: fetch the top `n` rows and, when the
result is non-empty, write them as the new snapshot (`cache_top_words`
also returns without writing on an empty list). -/
def update_top_words_cache_from_db (st : AppState) (n : Nat) : AppState :=
  if (dbTopN st.freqs n).isEmpty then st
  else { st with topCache := some (dbTopN st.freqs n) }

/-- The cache path of one ingestion, on the success path of the Redis
`try`/`except` (the claim conditions on the rebuild completing): empty
token batch returns early; otherwise merge the counts, invalidate the
snapshot, and rebuild it from the store. -/
def ingest_update (st : AppState) (content : String) : AppState :=
  if (batchCounts (tokenize content)).isEmpty then st
  else update_top_words_cache_from_db
    (invalidate_top_words_cache
      { st with freqs := update_word_frequencies st.freqs content })
    TOP_N_CACHED_WORDS

/-- A sequence of ingestion events. -/
def ingestPipeline (st : AppState) (texts : List String) : AppState :=
  texts.foldl ingest_update st

theorem dbTopN_subset (freqs : List (String × Nat)) (n : Nat) :
    ∀ p ∈ dbTopN freqs n, p ∈ freqs := by
  intro p hp
  exact (sortDescBy_perm Prod.snd freqs).mem_iff.mp (List.mem_of_mem_take hp)

theorem dbTopN_sorted (freqs : List (String × Nat)) (n : Nat) :
    (dbTopN freqs n).Pairwise (fun a b => b.2 ≤ a.2) :=
  (sortDescBy_pairwise Prod.snd freqs).sublist (List.take_sublist n _)

theorem dbTopN_length (freqs : List (String × Nat)) (n : Nat) :
    (dbTopN freqs n).length = min n freqs.length := by
  rw [dbTopN, List.length_take, (sortDescBy_perm Prod.snd freqs).length_eq]

theorem dbTopN_dominates (freqs : List (String × Nat)) (n : Nat) :
    ∀ q ∈ freqs, q ∉ dbTopN freqs n → ∀ p ∈ dbTopN freqs n, q.2 ≤ p.2 := by
  intro q hq hqn p hp
  have hsp := sortDescBy_pairwise Prod.snd freqs
  have hqs : q ∈ sortDescBy Prod.snd freqs :=
    (sortDescBy_perm Prod.snd freqs).mem_iff.mpr hq
  rw [← List.take_append_drop n (sortDescBy Prod.snd freqs)] at hqs hsp
  have hcross := (List.pairwise_append.mp hsp).2.2
  rcases List.mem_append.mp hqs with htk | hdr
  · exact absurd htk hqn
  · exact hcross p hp q hdr

theorem update_word_frequencies_ne_nil (store : List (String × Nat))
    (content : String) (h : (batchCounts (tokenize content)).isEmpty = false) :
    update_word_frequencies store content ≠ [] := by
  have hex : ∃ p, p ∈ batchCounts (tokenize content) := by
    cases hbc : batchCounts (tokenize content) with
    | nil => rw [hbc] at h; simp at h
    | cons a rest => exact ⟨a, by simp [hbc]⟩
  obtain ⟨p, hp⟩ := hex
  have hw : p.1 ∈ tokenize content := (mem_keys_batchCounts _ _).mp ⟨p, hp, rfl⟩
  intro hnil
  have hD := lookupFreqD_update_word_frequencies store content p.1
  rw [hnil] at hD
  simp only [lookupFreqD, lookupFreq, List.find?_nil, Option.map_none',
    Option.getD_none] at hD
  have hcnt0 : (tokenize content).count p.1 = 0 := by omega
  rw [List.count_eq_zero] at hcnt0
  exact hcnt0 hw

theorem update_top_cache_eq (fr : List (String × Nat)) (n : Nat)
    (h : dbTopN fr n ≠ []) :
    update_top_words_cache_from_db ⟨fr, none⟩ n = ⟨fr, some (dbTopN fr n)⟩ := by
  rw [update_top_words_cache_from_db,
    if_neg (by simpa [List.isEmpty_iff] using h)]

theorem ingest_update_eq (st : AppState) (t : String)
    (h : (batchCounts (tokenize t)).isEmpty = false)
    (hne : dbTopN (update_word_frequencies st.freqs t) TOP_N_CACHED_WORDS ≠ []) :
    ingest_update st t =
      ⟨update_word_frequencies st.freqs t,
       some (dbTopN (update_word_frequencies st.freqs t) TOP_N_CACHED_WORDS)⟩ := by
  rw [ingest_update, if_neg (by rw [h]; simp)]
  have hinv : invalidate_top_words_cache
      { st with freqs := update_word_frequencies st.freqs t } =
      ⟨update_word_frequencies st.freqs t, none⟩ := rfl
  rw [hinv, update_top_cache_eq _ _ hne]

/-- C7: for every sequence of ingestions whose last event has a non-empty
token batch, after that event's invalidate-rebuild completes, the cached
snapshot is exactly the store's top-`TOP_N_CACHED_WORDS` query result: its
entries are rows of the durable store, sorted by count descending, and
every row left out of the snapshot has a count no larger than any
snapshot entry's. -/
theorem topn_cache_coherent (st : AppState) (ts : List String) (t : String)
    (h : (batchCounts (tokenize t)).isEmpty = false) :
    (ingestPipeline st (ts ++ [t])).topCache =
      some (dbTopN (ingestPipeline st (ts ++ [t])).freqs TOP_N_CACHED_WORDS)
    ∧ (∀ p ∈ dbTopN (ingestPipeline st (ts ++ [t])).freqs TOP_N_CACHED_WORDS,
        p ∈ (ingestPipeline st (ts ++ [t])).freqs)
    ∧ (dbTopN (ingestPipeline st (ts ++ [t])).freqs TOP_N_CACHED_WORDS).Pairwise
        (fun a b => b.2 ≤ a.2)
    ∧ ∀ q ∈ (ingestPipeline st (ts ++ [t])).freqs,
        q ∉ dbTopN (ingestPipeline st (ts ++ [t])).freqs TOP_N_CACHED_WORDS →
        ∀ p ∈ dbTopN (ingestPipeline st (ts ++ [t])).freqs TOP_N_CACHED_WORDS,
          q.2 ≤ p.2 := by
  rw [ingestPipeline, List.foldl_append, List.foldl_cons, List.foldl_nil]
  have hfrne := update_word_frequencies_ne_nil
    (List.foldl ingest_update st ts).freqs t h
  have hdne : dbTopN (update_word_frequencies
      (List.foldl ingest_update st ts).freqs t) TOP_N_CACHED_WORDS ≠ [] := by
    intro hnil
    have hlen := dbTopN_length (update_word_frequencies
      (List.foldl ingest_update st ts).freqs t) TOP_N_CACHED_WORDS
    rw [hnil] at hlen
    have hfl : (update_word_frequencies
        (List.foldl ingest_update st ts).freqs t).length ≠ 0 :=
      fun hz => hfrne (List.length_eq_zero.mp hz)
    have h10 : TOP_N_CACHED_WORDS = 10 := rfl
    simp only [List.length_nil] at hlen
    omega
  rw [ingest_update_eq _ _ h hdne]
  exact ⟨rfl, dbTopN_subset _ _, dbTopN_sorted _ _, dbTopN_dominates _ _⟩

/-- Witness for C7: one ingestion of "hello world" into the empty state;
the rebuilt snapshot equals the store's top-N query result. -/
theorem topn_cache_coherent_witness :
    (ingestPipeline ⟨[], none⟩ ["hello world"]).topCache =
      some (dbTopN (ingestPipeline ⟨[], none⟩ ["hello world"]).freqs
        TOP_N_CACHED_WORDS)
    ∧ (ingestPipeline ⟨[], none⟩ ["hello world"]).topCache =
      some [("world", 1), ("hello", 1)] := by
  have hcl := topn_cache_coherent ⟨[], none⟩ [] "hello world" (by decide)
  exact ⟨hcl.1, hcl.1.trans (by decide)⟩

/-! Definition-cache refresh pass
(`cache_definitions_for_top_words_async` in `backend/commons/redis_client.py`).
A cache entry is `(word, definition, remaining TTL)`; Redis purges expired
keys itself, so a present entry is a valid one. -/

/-- Embeds `redis_client.exists(key)`. -/
def existsDef (cache : List (String × String × Nat)) (w : String) : Bool :=
  cache.any (fun p => p.1 == w)

/-- Embeds `redis_client.get(key)` together with the entry's TTL. -/
def lookupDef (cache : List (String × String × Nat)) (w : String) :
    Option (String × Nat) :=
  (cache.find? (fun p => p.1 == w)).map (·.2)

/-- Embeds `redis_client.expire(key, ttl)`: reset the TTL of an existing entry. -/
def expireDef (cache : List (String × String × Nat)) (w : String) (ttl : Nat) :
    List (String × String × Nat) :=
  cache.map (fun p => if p.1 == w then (p.1, p.2.1, ttl) else p)

/-- Embeds `redis_client.setex(key, ttl, value)`: overwrite or create an entry. -/
def setexDef (cache : List (String × String × Nat)) (w d : String) (ttl : Nat) :
    List (String × String × Nat) :=
  if existsDef cache w then
    cache.map (fun p => if p.1 == w then (p.1, d, ttl) else p)
  else cache ++ [(w, d, ttl)]

/-- First loop of `cache_definitions_for_top_words_async`: for each top
word, an existing definition gets its TTL reset; a missing one is queued
in `words_to_fetch` (success path of the per-word `try`). -/
def refreshPhase1 (cache : List (String × String × Nat)) :
    List (String × Nat) → List (String × String × Nat) × List String
  | [] => (cache, [])
  | wp :: rest =>
    if existsDef cache wp.1 then
      refreshPhase1 (expireDef cache wp.1 REDIS_DEFINITION_TTL) rest
    else
      ((refreshPhase1 cache rest).1, wp.1 :: (refreshPhase1 cache rest).2)

/-- Second loop: fetch each queued word from the dictionary API
(`apiDef w = none` models a failed call or a response without a
definition); only a non-empty definition is cached, with the standard
TTL. -/
def refreshPhase2 (apiDef : String → Option String)
    (cache : List (String × String × Nat)) :
    List String → List (String × String × Nat)
  | [] => cache
  | w :: rest =>
    match apiDef w with
    | some d =>
      if d.isEmpty then refreshPhase2 apiDef cache rest
      else refreshPhase2 apiDef (setexDef cache w d REDIS_DEFINITION_TTL) rest
    | none => refreshPhase2 apiDef cache rest

/-- Embeds `cache_definitions_for_top_words_async`: returns the final cache and
the list of words for which the external lookup was called. -/
def cache_definitions_for_top_words (cache : List (String × String × Nat))
    (apiDef : String → Option String) (top : List (String × Nat)) :
    List (String × String × Nat) × List String :=
  (refreshPhase2 apiDef (refreshPhase1 cache top).1 (refreshPhase1 cache top).2,
   (refreshPhase1 cache top).2)

theorem lookupDef_cons (a : String × String × Nat)
    (rest : List (String × String × Nat)) (x : String) :
    lookupDef (a :: rest) x = if a.1 = x then some a.2 else lookupDef rest x := by
  by_cases h : a.1 = x <;> simp [lookupDef, List.find?_cons, h]

theorem existsDef_eq_true_iff (cache : List (String × String × Nat))
    (w : String) : existsDef cache w = true ↔ ∃ p ∈ cache, p.1 = w := by
  simp [existsDef, List.any_eq_true]

theorem existsDef_eq_false_iff (cache : List (String × String × Nat))
    (w : String) : existsDef cache w = false ↔ lookupDef cache w = none := by
  rw [← Bool.not_eq_true, existsDef_eq_true_iff, lookupDef,
    Option.map_eq_none', List.find?_eq_none]
  constructor
  · intro h p hp hbeq
    exact h ⟨p, hp, by simpa using hbeq⟩
  · rintro h ⟨p, hp, hpw⟩
    exact (h p hp) (by simpa using hpw)

theorem existsDef_expireDef (cache : List (String × String × Nat))
    (x : String) (ttl : Nat) (w : String) :
    existsDef (expireDef cache x ttl) w = existsDef cache w := by
  induction cache with
  | nil => rfl
  | cons a rest ih =>
    have hfst : (if a.1 == x then (a.1, a.2.1, ttl) else a).1 = a.1 := by
      by_cases h : a.1 = x <;> simp [h]
    show ((if a.1 == x then (a.1, a.2.1, ttl) else a) ::
        expireDef rest x ttl).any (fun p => p.1 == w) =
      (a :: rest).any (fun p => p.1 == w)
    have ih' : (expireDef rest x ttl).any (fun p => p.1 == w) =
        rest.any (fun p => p.1 == w) := ih
    rw [List.any_cons, List.any_cons, hfst, ih']

theorem lookupDef_expireDef (cache : List (String × String × Nat))
    (x : String) (ttl : Nat) (w : String) :
    lookupDef (expireDef cache x ttl) w =
      if w = x then (lookupDef cache w).map (fun p => (p.1, ttl))
      else lookupDef cache w := by
  induction cache with
  | nil => by_cases h : w = x <;> simp [lookupDef, expireDef, h]
  | cons a rest ih =>
    have hfst : (if a.1 == x then (a.1, a.2.1, ttl) else a).1 = a.1 := by
      by_cases h : a.1 = x <;> simp [h]
    rw [expireDef, List.map_cons, lookupDef_cons, hfst, lookupDef_cons, ← expireDef, ih]
    by_cases haw : a.1 = w
    · by_cases hwx : w = x
      · simp [haw, hwx]
      · have : ¬ (a.1 == x) = true := by simp [haw, hwx]
        simp [haw, hwx, this]
    · simp [haw]

theorem lookupDef_map_set (cache : List (String × String × Nat))
    (x d : String) (ttl : Nat) (w : String) :
    lookupDef (cache.map (fun p => if p.1 == x then (p.1, d, ttl) else p)) w =
      if w = x then (lookupDef cache w).map (fun _ => (d, ttl))
      else lookupDef cache w := by
  induction cache with
  | nil => by_cases h : w = x <;> simp [lookupDef, h]
  | cons a rest ih =>
    have hfst : (if a.1 == x then (a.1, d, ttl) else a).1 = a.1 := by
      by_cases h : a.1 = x <;> simp [h]
    rw [List.map_cons, lookupDef_cons, hfst, lookupDef_cons, ih]
    by_cases haw : a.1 = w
    · by_cases hwx : w = x
      · have : (a.1 == x) = true := by simp [haw, hwx]
        simp [haw, hwx, this]
      · have : ¬ (a.1 == x) = true := by simp [haw, hwx]
        simp [haw, hwx, this]
    · simp [haw]

theorem lookupDef_append_single (cache : List (String × String × Nat))
    (x d : String) (ttl : Nat) (w : String)
    (hnone : lookupDef cache x = none) :
    lookupDef (cache ++ [(x, d, ttl)]) w =
      if w = x then some (d, ttl) else lookupDef cache w := by
  induction cache with
  | nil =>
    by_cases hwx : w = x
    · simp [lookupDef_cons, lookupDef, hwx]
    · have hxw : ¬ x = w := fun h => hwx h.symm
      simp [lookupDef_cons, lookupDef, hwx, hxw]
  | cons a rest ih =>
    rw [lookupDef_cons] at hnone
    rw [List.cons_append, lookupDef_cons, lookupDef_cons]
    by_cases hax : a.1 = x
    · rw [if_pos hax] at hnone
      exact absurd hnone (Option.some_ne_none _)
    · rw [if_neg hax] at hnone
      rw [ih hnone]
      by_cases haw : a.1 = w
      · have hwx : ¬ w = x := fun h => hax (haw.trans h)
        simp [haw, hwx]
      · simp [haw]

theorem lookupDef_setexDef (cache : List (String × String × Nat))
    (x d : String) (ttl : Nat) (w : String) :
    lookupDef (setexDef cache x d ttl) w =
      if w = x then some (d, ttl) else lookupDef cache w := by
  rw [setexDef]
  by_cases hex : existsDef cache x = true
  · rw [if_pos hex, lookupDef_map_set]
    by_cases hwx : w = x
    · have hlk : lookupDef cache x ≠ none := by
        intro hn
        rw [← existsDef_eq_false_iff, hex] at hn
        cases hn
      obtain ⟨q, hq⟩ := Option.ne_none_iff_exists'.mp hlk
      simp [hwx, hq]
    · simp [hwx]
  · rw [if_neg hex]
    have hnone : lookupDef cache x = none := by
      rw [← existsDef_eq_false_iff]
      exact Bool.eq_false_iff.mpr hex
    exact lookupDef_append_single cache x d ttl w hnone

theorem refreshPhase1_fetch (cache : List (String × String × Nat))
    (top : List (String × Nat)) :
    (refreshPhase1 cache top).2 =
      (top.map Prod.fst).filter (fun w => !(existsDef cache w)) := by
  induction top generalizing cache with
  | nil => rfl
  | cons wp rest ih =>
    by_cases hex : existsDef cache wp.1 = true
    · simp only [refreshPhase1, hex, if_true, List.map_cons, List.filter_cons]
      rw [ih]
      rw [if_neg (by simp)]
      apply List.filter_congr
      intro w _
      rw [existsDef_expireDef]
    · have hexf : existsDef cache wp.1 = false := Bool.eq_false_iff.mpr hex
      simp only [refreshPhase1, hexf, Bool.false_eq_true, if_false,
        List.map_cons, List.filter_cons]
      rw [if_pos (by simp), ih]

theorem refreshPhase1_cache (cache : List (String × String × Nat))
    (top : List (String × Nat)) (w : String)
    (hnd : (top.map Prod.fst).Nodup) :
    lookupDef (refreshPhase1 cache top).1 w =
      if w ∈ top.map Prod.fst ∧ existsDef cache w = true
      then (lookupDef cache w).map (fun p => (p.1, REDIS_DEFINITION_TTL))
      else lookupDef cache w := by
  induction top generalizing cache with
  | nil => simp [refreshPhase1]
  | cons wp rest ih =>
    rw [List.map_cons] at hnd ⊢
    rw [List.nodup_cons] at hnd
    by_cases hex : existsDef cache wp.1 = true
    · simp only [refreshPhase1, hex, if_true]
      rw [ih _ hnd.2]
      by_cases hww : w = wp.1
      · have hnr : w ∉ rest.map Prod.fst := hww ▸ hnd.1
        have hexw : existsDef cache w = true := hww ▸ hex
        rw [if_neg (by
          rintro ⟨hm, _⟩
          rw [existsDef_expireDef] at *
          exact hnr hm)]
        rw [lookupDef_expireDef, if_pos hww,
          if_pos ⟨by rw [hww]; exact List.mem_cons_self _ _, hexw⟩]
      · have hl : lookupDef (expireDef cache wp.1 REDIS_DEFINITION_TTL) w =
            lookupDef cache w := by
          rw [lookupDef_expireDef, if_neg hww]
        have hx : existsDef (expireDef cache wp.1 REDIS_DEFINITION_TTL) w =
            existsDef cache w := existsDef_expireDef _ _ _ _
        rw [hl, hx]
        by_cases hc : w ∈ rest.map Prod.fst ∧ existsDef cache w = true
        · rw [if_pos hc, if_pos ⟨List.mem_cons_of_mem _ hc.1, hc.2⟩]
        · rw [if_neg hc, if_neg (by
            rintro ⟨hm, he⟩
            rcases List.mem_cons.mp hm with he' | hm'
            · exact hww he'
            · exact hc ⟨hm', he⟩)]
    · have hexf : existsDef cache wp.1 = false := Bool.eq_false_iff.mpr hex
      simp only [refreshPhase1, hexf, Bool.false_eq_true, if_false]
      rw [ih _ hnd.2]
      by_cases hww : w = wp.1
      · have hfx : ¬ existsDef cache w = true := by
          rw [hww, hexf]
          simp
        rw [if_neg (fun hc => hfx hc.2), if_neg (fun hc => hfx hc.2)]
      · by_cases hc : w ∈ rest.map Prod.fst ∧ existsDef cache w = true
        · rw [if_pos hc, if_pos ⟨List.mem_cons_of_mem _ hc.1, hc.2⟩]
        · rw [if_neg hc, if_neg (by
            rintro ⟨hm, he⟩
            rcases List.mem_cons.mp hm with he' | hm'
            · exact hww he'
            · exact hc ⟨hm', he⟩)]

theorem refreshPhase2_frame (apiDef : String → Option String)
    (cache : List (String × String × Nat)) (toFetch : List String) (w : String)
    (h : w ∉ toFetch) :
    lookupDef (refreshPhase2 apiDef cache toFetch) w = lookupDef cache w := by
  induction toFetch generalizing cache with
  | nil => rfl
  | cons x rest ih =>
    have hwx : ¬ w = x := fun he => h (he ▸ List.mem_cons_self x rest)
    have hw' : w ∉ rest := fun hm => h (List.mem_cons_of_mem _ hm)
    cases hapi : apiDef x with
    | none => simp only [refreshPhase2, hapi]; exact ih _ hw'
    | some d =>
      by_cases hde : d.isEmpty = true
      · simp only [refreshPhase2, hapi, hde, if_true]
        exact ih _ hw'
      · simp only [refreshPhase2, hapi, hde, Bool.false_eq_true, if_false]
        rw [ih _ hw', lookupDef_setexDef, if_neg hwx]

theorem refreshPhase2_target (apiDef : String → Option String)
    (cache : List (String × String × Nat)) (toFetch : List String) (w : String)
    (hmem : w ∈ toFetch) (hnd : toFetch.Nodup) :
    (apiDef w = none →
      lookupDef (refreshPhase2 apiDef cache toFetch) w = lookupDef cache w)
    ∧ (∀ d, apiDef w = some d → d.isEmpty = true →
      lookupDef (refreshPhase2 apiDef cache toFetch) w = lookupDef cache w)
    ∧ (∀ d, apiDef w = some d → d.isEmpty = false →
      lookupDef (refreshPhase2 apiDef cache toFetch) w =
        some (d, REDIS_DEFINITION_TTL)) := by
  induction toFetch generalizing cache with
  | nil => cases hmem
  | cons x rest ih =>
    rw [List.nodup_cons] at hnd
    by_cases hwx : w = x
    · subst hwx
      have hw' : w ∉ rest := hnd.1
      refine ⟨?_, ?_, ?_⟩
      · intro hnapi
        simp only [refreshPhase2, hnapi]
        exact refreshPhase2_frame apiDef cache rest w hw'
      · intro d hd hde
        simp only [refreshPhase2, hd, hde, if_true]
        exact refreshPhase2_frame apiDef cache rest w hw'
      · intro d hd hde
        simp only [refreshPhase2, hd, hde, Bool.false_eq_true, if_false]
        rw [refreshPhase2_frame apiDef _ rest w hw', lookupDef_setexDef,
          if_pos rfl]
    · have hm' : w ∈ rest := by
        rcases List.mem_cons.mp hmem with he | hm
        · exact absurd he hwx
        · exact hm
      have hframe : ∀ c : List (String × String × Nat),
          lookupDef (setexDef c x (default : String) 0) w = lookupDef c w := by
        intro c
        rw [lookupDef_setexDef, if_neg hwx]
      cases hapi : apiDef x with
      | none =>
        simp only [refreshPhase2, hapi]
        exact ih _ hm' hnd.2
      | some d =>
        by_cases hde : d.isEmpty = true
        · simp only [refreshPhase2, hapi, hde, if_true]
          exact ih _ hm' hnd.2
        · simp only [refreshPhase2, hapi, hde, Bool.false_eq_true, if_false]
          have ihs := ih (setexDef cache x d REDIS_DEFINITION_TTL) hm' hnd.2
          refine ⟨?_, ?_, ?_⟩
          · intro hnapi
            rw [ihs.1 hnapi, lookupDef_setexDef, if_neg hwx]
          · intro d2 hd2 hde2
            rw [ihs.2.1 d2 hd2 hde2, lookupDef_setexDef, if_neg hwx]
          · intro d2 hd2 hde2
            exact ihs.2.2 d2 hd2 hde2

/-- C8: during a definition-cache refresh pass over the current top set,
a word with an existing cached definition has its expiry reset to the
standard TTL, keeping its definition, and the external lookup is never
called for it; a word with no cached definition is fetched exactly once
and cached with the standard TTL only when the lookup succeeds with
content; on lookup failure it stays uncached, so a later pass retries. -/
theorem definition_cache_refresh (cache : List (String × String × Nat))
    (apiDef : String → Option String) (top : List (String × Nat)) (w : String)
    (hnd : (top.map Prod.fst).Nodup) (hw : w ∈ top.map Prod.fst) :
    (∀ d t, lookupDef cache w = some (d, t) →
      lookupDef (cache_definitions_for_top_words cache apiDef top).1 w =
          some (d, REDIS_DEFINITION_TTL)
        ∧ w ∉ (cache_definitions_for_top_words cache apiDef top).2)
    ∧ (lookupDef cache w = none →
        (cache_definitions_for_top_words cache apiDef top).2.count w = 1
        ∧ (∀ d, apiDef w = some d → d.isEmpty = false →
            lookupDef (cache_definitions_for_top_words cache apiDef top).1 w =
              some (d, REDIS_DEFINITION_TTL))
        ∧ (apiDef w = none →
            lookupDef (cache_definitions_for_top_words cache apiDef top).1 w =
              none)) := by
  have hfl := refreshPhase1_fetch cache top
  constructor
  · intro d t hsome
    have hex : existsDef cache w = true := by
      cases hb : existsDef cache w
      · rw [existsDef_eq_false_iff] at hb
        rw [hb] at hsome
        cases hsome
      · rfl
    have hnotin : w ∉ (refreshPhase1 cache top).2 := by
      rw [hfl]
      intro hmem2
      have hflag := (List.mem_filter.mp hmem2).2
      rw [hex] at hflag
      cases hflag
    refine ⟨?_, hnotin⟩
    show lookupDef (refreshPhase2 apiDef (refreshPhase1 cache top).1
      (refreshPhase1 cache top).2) w = some (d, REDIS_DEFINITION_TTL)
    rw [refreshPhase2_frame _ _ _ _ hnotin,
      refreshPhase1_cache cache top w hnd, if_pos ⟨hw, hex⟩, hsome]
    rfl
  · intro hnone
    have hex : existsDef cache w = false := (existsDef_eq_false_iff _ _).mpr hnone
    have hmem2 : w ∈ (refreshPhase1 cache top).2 := by
      rw [hfl]
      exact List.mem_filter.mpr ⟨hw, by rw [hex]; rfl⟩
    have hndfl : (refreshPhase1 cache top).2.Nodup := by
      rw [hfl]
      exact hnd.filter _
    have hc1 : lookupDef (refreshPhase1 cache top).1 w = none := by
      rw [refreshPhase1_cache cache top w hnd,
        if_neg (by rintro ⟨_, he⟩; rw [hex] at he; cases he)]
      exact hnone
    have htgt := refreshPhase2_target apiDef (refreshPhase1 cache top).1
      (refreshPhase1 cache top).2 w hmem2 hndfl
    refine ⟨List.count_eq_one_of_mem hndfl hmem2, ?_, ?_⟩
    · intro d hd hde
      exact htgt.2.2 d hd hde
    · intro hnapi
      show lookupDef (refreshPhase2 apiDef (refreshPhase1 cache top).1
        (refreshPhase1 cache top).2) w = none
      rw [htgt.1 hnapi, hc1]

/-- Witness for C8: cache holding a definition for "alpha"; the API knows
"beta" but not "gamma"; top set = alpha, beta, gamma. -/
theorem definition_cache_refresh_witness :
    lookupDef (cache_definitions_for_top_words
        [("alpha", "first letter", 10)]
        (fun w => if w = "beta" then some "second letter" else none)
        [("alpha", 5), ("beta", 4), ("gamma", 3)]).1 "alpha"
      = some ("first letter", REDIS_DEFINITION_TTL)
    ∧ "alpha" ∉ (cache_definitions_for_top_words
        [("alpha", "first letter", 10)]
        (fun w => if w = "beta" then some "second letter" else none)
        [("alpha", 5), ("beta", 4), ("gamma", 3)]).2
    ∧ (cache_definitions_for_top_words
        [("alpha", "first letter", 10)]
        (fun w => if w = "beta" then some "second letter" else none)
        [("alpha", 5), ("beta", 4), ("gamma", 3)]).2.count "beta" = 1
    ∧ lookupDef (cache_definitions_for_top_words
        [("alpha", "first letter", 10)]
        (fun w => if w = "beta" then some "second letter" else none)
        [("alpha", 5), ("beta", 4), ("gamma", 3)]).1 "beta"
      = some ("second letter", REDIS_DEFINITION_TTL)
    ∧ lookupDef (cache_definitions_for_top_words
        [("alpha", "first letter", 10)]
        (fun w => if w = "beta" then some "second letter" else none)
        [("alpha", 5), ("beta", 4), ("gamma", 3)]).1 "gamma" = none := by
  have ha := definition_cache_refresh [("alpha", "first letter", 10)]
    (fun w => if w = "beta" then some "second letter" else none)
    [("alpha", 5), ("beta", 4), ("gamma", 3)] "alpha" (by decide) (by decide)
  have hb := definition_cache_refresh [("alpha", "first letter", 10)]
    (fun w => if w = "beta" then some "second letter" else none)
    [("alpha", 5), ("beta", 4), ("gamma", 3)] "beta" (by decide) (by decide)
  have hg := definition_cache_refresh [("alpha", "first letter", 10)]
    (fun w => if w = "beta" then some "second letter" else none)
    [("alpha", 5), ("beta", 4), ("gamma", 3)] "gamma" (by decide) (by decide)
  have ha' := ha.1 "first letter" 10 rfl
  have hb' := hb.2 rfl
  exact ⟨ha'.1, ha'.2, hb'.1, hb'.2.1 "second letter" rfl rfl, (hg.2 rfl).2.2 rfl⟩

/-! Dictionary view builder (`DictionaryService.get_top_words_definitions`
in `backend/dict_service/service.py`). -/

/-- One `definitions` entry of the dictionary response
(`WordDefinition` in `backend/commons/schemas.py`). -/
structure WordDefinition where
  word : String
  definition : String
  frequency : Nat
deriving DecidableEq

/-- The word/frequency sourcing step:
`if top_words_cached and len(top_words_cached) >= top_n:` use the cached
snapshot's first `top_n` entries, otherwise fall back to the DB top-N
query.  (A `None` snapshot and an empty list are both falsy.) -/
def selectTopWords (cachedTop : Option (List (String × Nat)))
    (db : List (String × Nat)) (top_n : Nat) : List (String × Nat) :=
  match cachedTop with
  | some l =>
    if !l.isEmpty && decide (top_n ≤ l.length) then l.take top_n
    else dbTopN db top_n
  | none => dbTopN db top_n

/-- The per-word definition resolution of the loop body: a truthy cached
value wins; otherwise the synchronous API result when it has content;
otherwise the fixed sentinel (Python's `if not definition:` treats both
`None` and the empty string as missing). -/
def definitionFor (cachedDef apiResult : Option String) : String :=
  match (match cachedDef with
         | some s => if s.isEmpty then none else some s
         | none => none) with
  | some s => s
  | none =>
    match (match apiResult with
           | some s => if s.isEmpty then none else some s
           | none => none) with
    | some s => s
    | none => "Definition not found"

/-- Embeds `DictionaryService.get_top_words_definitions`: source the word list,
then resolve one definition per word (`redisDef` is the definition cache's
`get`, `apiDef` the external dictionary call's extracted definition,
`none` meaning failure or no content). -/
def get_top_words_definitions (cachedTop : Option (List (String × Nat)))
    (db : List (String × Nat)) (redisDef apiDef : String → Option String)
    (top_n : Nat) : List WordDefinition :=
  (selectTopWords cachedTop db top_n).map
    (fun wc => ⟨wc.1, definitionFor (redisDef wc.1) (apiDef wc.1), wc.2⟩)

/-- C9: every dictionary request returns one entry per sourced word (no
word's failure aborts the batch); an entry's definition is the cached
value on a cache hit, else the synchronous lookup's result, and the fixed
sentinel "Definition not found" when the lookup fails. -/
theorem dictionary_definitions_best_effort
    (cachedTop : Option (List (String × Nat))) (db : List (String × Nat))
    (redisDef apiDef : String → Option String) (top_n : Nat) :
    (get_top_words_definitions cachedTop db redisDef apiDef top_n).length =
      (selectTopWords cachedTop db top_n).length
    ∧ ∀ w c, (w, c) ∈ selectTopWords cachedTop db top_n →
      ((∀ d, redisDef w = some d → d.isEmpty = false →
        (⟨w, d, c⟩ : WordDefinition) ∈
          get_top_words_definitions cachedTop db redisDef apiDef top_n)
      ∧ (redisDef w = none → ∀ d, apiDef w = some d → d.isEmpty = false →
        (⟨w, d, c⟩ : WordDefinition) ∈
          get_top_words_definitions cachedTop db redisDef apiDef top_n)
      ∧ (redisDef w = none → apiDef w = none →
        (⟨w, "Definition not found", c⟩ : WordDefinition) ∈
          get_top_words_definitions cachedTop db redisDef apiDef top_n)) := by
  refine ⟨List.length_map _ _, ?_⟩
  intro w c hm
  have hx := List.mem_map_of_mem
    (fun wc : String × Nat =>
      (⟨wc.1, definitionFor (redisDef wc.1) (apiDef wc.1), wc.2⟩ : WordDefinition))
    hm
  refine ⟨?_, ?_, ?_⟩
  · intro d hd hde
    simpa [get_top_words_definitions, definitionFor, hd, hde] using hx
  · intro hr d hd hde
    simpa [get_top_words_definitions, definitionFor, hr, hd, hde] using hx
  · intro hr ha
    simpa [get_top_words_definitions, definitionFor, hr, ha] using hx

/-- Witness for C9: three sourced words — a cache hit, a cache miss with a
successful lookup, and a failed lookup yielding the sentinel. -/
theorem dictionary_definitions_best_effort_witness :
    (⟨"alpha", "cached def", 5⟩ : WordDefinition) ∈
      get_top_words_definitions (some [("alpha", 5), ("beta", 4), ("gamma", 3)])
        [] (fun w => if w = "alpha" then some "cached def" else none)
        (fun w => if w = "beta" then some "api def" else none) 3
    ∧ (⟨"beta", "api def", 4⟩ : WordDefinition) ∈
      get_top_words_definitions (some [("alpha", 5), ("beta", 4), ("gamma", 3)])
        [] (fun w => if w = "alpha" then some "cached def" else none)
        (fun w => if w = "beta" then some "api def" else none) 3
    ∧ (⟨"gamma", "Definition not found", 3⟩ : WordDefinition) ∈
      get_top_words_definitions (some [("alpha", 5), ("beta", 4), ("gamma", 3)])
        [] (fun w => if w = "alpha" then some "cached def" else none)
        (fun w => if w = "beta" then some "api def" else none) 3 := by
  have h := dictionary_definitions_best_effort
    (some [("alpha", 5), ("beta", 4), ("gamma", 3)]) []
    (fun w => if w = "alpha" then some "cached def" else none)
    (fun w => if w = "beta" then some "api def" else none) 3
  refine ⟨?_, ?_, ?_⟩
  · exact (h.2 "alpha" 5 (by decide)).1 "cached def" rfl rfl
  · exact (h.2 "beta" 4 (by decide)).2.1 rfl "api def" rfl rfl
  · exact (h.2 "gamma" 3 (by decide)).2.2 rfl rfl

/-- C10: the cached top-words snapshot is used (truncated to `top_n`) only
when it holds at least `top_n` entries; a shorter or absent snapshot is
ignored and the word list comes from the DB top-N query ordered by
frequency descending, returning whatever rows exist (up to `top_n`). -/
theorem top_words_sourcing (cachedTop : Option (List (String × Nat)))
    (db : List (String × Nat)) (top_n : Nat) (hpos : 1 ≤ top_n) :
    (∀ l, cachedTop = some l → top_n ≤ l.length →
      selectTopWords cachedTop db top_n = l.take top_n)
    ∧ (∀ l, cachedTop = some l → l.length < top_n →
      selectTopWords cachedTop db top_n = dbTopN db top_n)
    ∧ (cachedTop = none → selectTopWords cachedTop db top_n = dbTopN db top_n)
    ∧ (dbTopN db top_n).length = min top_n db.length
    ∧ (dbTopN db top_n).Pairwise (fun a b => b.2 ≤ a.2)
    ∧ (∀ p ∈ dbTopN db top_n, p ∈ db) := by
  refine ⟨?_, ?_, ?_, dbTopN_length db top_n, dbTopN_sorted db top_n,
    dbTopN_subset db top_n⟩
  · rintro l rfl hlen
    have hne : l.isEmpty = false := by
      cases l with
      | nil => simp at hlen; omega
      | cons a rest => rfl
    simp [selectTopWords, hne, hlen]
  · rintro l rfl hlen
    have hgt : ¬ (top_n ≤ l.length) := by omega
    simp [selectTopWords, hgt]
  · rintro rfl
    rfl

/-- Witness for C10: a 2-entry snapshot with `top_n = 2` is used as-is; an
absent snapshot falls back to the DB query in descending frequency
order. -/
theorem top_words_sourcing_witness :
    selectTopWords (some [("alpha", 5), ("beta", 4)])
        [("word", 7), ("text", 9)] 2 = [("alpha", 5), ("beta", 4)]
    ∧ selectTopWords none [("word", 7), ("text", 9)] 2 =
        [("text", 9), ("word", 7)] := by
  have h1 := top_words_sourcing (some [("alpha", 5), ("beta", 4)])
    [("word", 7), ("text", 9)] 2 (by decide)
  have h2 := top_words_sourcing none [("word", 7), ("text", 9)] 2 (by decide)
  exact ⟨(h1.1 [("alpha", 5), ("beta", 4)] rfl (by decide)).trans (by decide),
    (h2.2.2.1 rfl).trans (by decide)⟩

end Portcast
